import Mathlib

/-!
Verification of the steam-charts time-series aggregation engine.

The definitions below are a shallow embedding of the client page
(`aggregateData`, `getAggregationInterval`, the merge step of
`processChartData`, the default-range effect, and the date handlers).
Timestamps and player counts are JavaScript numbers holding integers, so
they are modelled as `Int`; the intermediate statistics (mean, variance)
are exact rationals.  The only real-valued operation, `Math.sqrt` in the
outlier threshold, is eliminated by squaring: for `d > 0`,
`d > 1.5 * sqrt v  ↔  d^2 > v * 9/4`; the equivalence with the
`Real.sqrt` form is proved below.  `Math.round` is floor(x + 1/2) in
JavaScript, modelled by `jsRound`.  JavaScript `Map` iterates keys in
insertion order and `Array.prototype.sort` is stable, so buckets are
modelled as insertion-ordered association lists and the final sort as
the stable `List.insertionSort`.
-/

namespace SteamCharts

/-- `HistoricalPoint` from the source: `{ date: number; count: number }`. -/
structure HistoricalPoint where
  date : Int
  count : Int
deriving DecidableEq

/-- The comparator `(a, b) => a.date - b.date` used to sort results. -/
def byDate (a b : HistoricalPoint) : Prop := a.date ≤ b.date

instance : DecidableRel byDate := fun a b => inferInstanceAs (Decidable (a.date ≤ b.date))

instance : IsTotal HistoricalPoint byDate := ⟨fun a b => Int.le_total a.date b.date⟩

instance : IsTrans HistoricalPoint byDate := ⟨fun _ _ _ h h2 => le_trans h h2⟩

/-- `Math.floor(point.date / intervalMs) * intervalMs`: floor division. -/
def bucketKey (intervalMs : Int) (d : Int) : Int := d.fdiv intervalMs * intervalMs

/-- One step of filling the `buckets` map: push `p` onto the list at key `k`,
creating the key at the end (JavaScript `Map` insertion order) if absent. -/
def addToBucket : List (Int × List HistoricalPoint) → Int → HistoricalPoint →
    List (Int × List HistoricalPoint)
  | [], k, p => [(k, [p])]
  | (k2, ps) :: rest, k, p =>
    if k2 = k then (k2, ps ++ [p]) :: rest else (k2, ps) :: addToBucket rest k p

/-- The grouping loop of `aggregateData` (lines 35-46 of the page). -/
def buildBuckets (data : List HistoricalPoint) (intervalMs : Int) :
    List (Int × List HistoricalPoint) :=
  data.foldl (fun bs p => addToBucket bs (bucketKey intervalMs p.date) p) []

/-- `points.reduce((sum, p) => sum + p.count, 0) / points.length`. -/
def meanOf (points : List HistoricalPoint) : ℚ :=
  (points.map fun p => (p.count : ℚ)).sum / (points.length : ℚ)

/-- Population variance: mean of squared deviations. -/
def varianceOf (points : List HistoricalPoint) : ℚ :=
  (points.map fun p => ((p.count : ℚ) - meanOf points) ^ 2).sum / (points.length : ℚ)

/-- `sortedCounts[Math.floor(sortedCounts.length / 2)]`. -/
def medianOf (points : List HistoricalPoint) : Int :=
  (List.insertionSort (· ≤ ·) (points.map fun p => p.count)).getD (points.length / 2) 0

/-- JavaScript `Math.round`: round half toward positive infinity. -/
def jsRound (q : ℚ) : Int := Rat.floor (q + 1/2)

/-- `d > stdDev * 1.5` with `stdDev = Math.sqrt v`, expressed without the
square root: for nonnegative `v` this Boolean equals the real comparison
(see the proof in claim C1). -/
def exceedsScaledStdDev (d v : ℚ) : Bool :=
  decide (0 < d) && decide (v * (9/4) < d ^ 2)

/-- The outlier test of lines 69-76: `point.count > mean` and
`point.count - mean > max(stdDev * 1.5, mean * 0.5)`. -/
def isUpwardOutlier (mean v : ℚ) (c : Int) : Bool :=
  decide (mean < (c : ℚ)) &&
    (exceedsScaledStdDev ((c : ℚ) - mean) v && decide (mean * (1/2) < (c : ℚ) - mean))

/-- The body of `buckets.forEach` (lines 51-98): a singleton bucket is
re-timestamped to the bucket key; a larger bucket is split into normal
points and upward outliers, a representative is emitted first and the
outliers follow in encounter order. -/
def processBucket (bucketDate : Int) (points : List HistoricalPoint) :
    List HistoricalPoint :=
  match points with
  | [p] => [⟨bucketDate, p.count⟩]
  | _ =>
    let mean := meanOf points
    let v := varianceOf points
    let upwardOutliers := points.filter fun p => isUpwardOutlier mean v p.count
    let normalPoints := points.filter fun p => !(isUpwardOutlier mean v p.count)
    (if normalPoints.length > 0 then [⟨bucketDate, jsRound (meanOf normalPoints)⟩]
     else [⟨bucketDate, jsRound ((medianOf points : ℚ))⟩]) ++ upwardOutliers

/-- `aggregateData` (lines 31-102): group into buckets, process each bucket
in insertion order, then sort ascending by date (stable sort). -/
def aggregateData (data : List HistoricalPoint) (intervalMs : Int) :
    List HistoricalPoint :=
  if data.length = 0 then []
  else
    List.insertionSort byDate
      (((buildBuckets data intervalMs).map fun b => processBucket b.1 b.2).flatten)

/-- `24 * 60 * 60 * 1000` milliseconds. -/
def DAY : Int := 24 * 60 * 60 * 1000

/-- `7 * DAY`. -/
def WEEK : Int := 7 * DAY

/-- `30 * DAY`. -/
def MONTH : Int := 30 * DAY

/-- `60 * 60 * 1000` milliseconds. -/
def HOUR : Int := 60 * 60 * 1000

/-- `getAggregationInterval` (lines 105-124). -/
def getAggregationInterval (startDate endDate : Int) : Int :=
  let rangeMs := endDate - startDate
  if rangeMs ≤ 7 * DAY then HOUR
  else if rangeMs ≤ 3 * MONTH then DAY
  else if rangeMs ≤ 12 * MONTH then WEEK
  else MONTH

/-- An entity entering the merge step: a display name together with its
(already aggregated) series. -/
structure AggEntity where
  name : String
  series : List HistoricalPoint
deriving DecidableEq

/-- A row of the merged chart table: the shared timestamp plus the sparse
per-entity assignments, modelled as an insertion-ordered association list
(a JavaScript object keeps string keys in insertion order). -/
abbrev MergedRow := Int × List (String × Int)

/-- `dateMap.get(dateKey)[game.name] = point.count`: set (or overwrite) an
object key. -/
def setKey : List (String × Int) → String → Int → List (String × Int)
  | [], name, v => [(name, v)]
  | (n, w) :: rest, name, v =>
    if n = name then (n, v) :: rest else (n, w) :: setKey rest name v

/-- Register one aggregated point in the `dateMap`: find or create (at the
end, `Map` insertion order) the row for `p.date` and set the entity's key. -/
def addPoint : List MergedRow → String → HistoricalPoint → List MergedRow
  | [], name, p => [(p.date, [(name, p.count)])]
  | (t, row) :: rest, name, p =>
    if t = p.date then (t, setKey row name p.count) :: rest
    else (t, row) :: addPoint rest name p

/-- The `dateMap`-filling loops of `processChartData` (lines 283-296). -/
def buildDateMap (entities : List AggEntity) : List MergedRow :=
  entities.foldl (fun rows e => e.series.foldl (fun rows p => addPoint rows e.name p) rows) []

/-- Ordering of merged rows by timestamp (`(a, b) => a.date - b.date`). -/
def rowLE (a b : MergedRow) : Prop := a.1 ≤ b.1

instance : DecidableRel rowLE := fun a b => inferInstanceAs (Decidable (a.1 ≤ b.1))

instance : IsTotal MergedRow rowLE := ⟨fun a b => Int.le_total a.1 b.1⟩

instance : IsTrans MergedRow rowLE := ⟨fun _ _ _ h h2 => le_trans h h2⟩

/-- The merge step of `processChartData` (lines 283-301): fill the
`dateMap` and sort the rows ascending by timestamp. -/
def mergeRows (entities : List AggEntity) : List MergedRow :=
  List.insertionSort rowLE (buildDateMap entities)

/-- `processChartData` (lines 263-302): filter each entity's series to the
active range, aggregate it at the interval chosen for that range, and merge. -/
def processChartData (games : List AggEntity) (startDate endDate : Int) :
    List MergedRow :=
  let intervalMs := getAggregationInterval startDate endDate
  mergeRows (games.map fun g =>
    ⟨g.name, aggregateData
      (g.series.filter fun p => decide (startDate ≤ p.date) && decide (p.date ≤ endDate))
      intervalMs⟩)

/-- One step of the default-range scan (lines 181-188 and 319-326): a game
with data raises `maxStart` to its first date and lowers `minEnd` to its
last date; `none` plays the role of the `-Infinity` / `Infinity` starting
values. -/
def rangeStep (acc : Option Int × Option Int) (data : List HistoricalPoint) :
    Option Int × Option Int :=
  match data with
  | [] => acc
  | p :: rest =>
    let gameStart := p.date
    let gameEnd := (rest.getLastD p).date
    (some (match acc.1 with | none => gameStart | some m => max m gameStart),
     some (match acc.2 with | none => gameEnd | some m => min m gameEnd))

/-- The default active range (the `useEffect` of lines 170-201, also
`resetZoom`): the intersection of the games' observed ranges when it is
non-empty, otherwise the most recent 365 days.  The condition
`maxStart <= minEnd && maxStart !== -Infinity` corresponds to the first
match arm; `maxStart = -Infinity` forces `minEnd = Infinity`, so the
remaining arms all fall back. -/
def computeDefaultRange (games : List (List HistoricalPoint)) (now : Int) :
    Int × Int :=
  match games.foldl rangeStep (none, none) with
  | (some maxStart, some minEnd) =>
    if maxStart ≤ minEnd then (maxStart, minEnd)
    else (now - 365 * DAY, now)
  | _ => (now - 365 * DAY, now)

/-- First observed date of a series (`game.data[0].date`). -/
def firstDate (g : List HistoricalPoint) : Int :=
  match g with
  | [] => 0
  | p :: _ => p.date

/-- Last observed date of a series (`game.data[game.data.length - 1].date`). -/
def lastDate (g : List HistoricalPoint) : Int :=
  match g with
  | [] => 0
  | p :: rest => (rest.getLastD p).date

/-- `handleStartDateChange` (lines 379-384): a parseable date (`some`)
replaces the start of the range unconditionally; `NaN` (`none`) is ignored.
No swap is performed here. -/
def handleStartDateChange (startDate endDate : Int) (newStart : Option Int) :
    Int × Int :=
  match newStart with
  | none => (startDate, endDate)
  | some s => (s, endDate)

/-- `handleEndDateChange` (lines 386-391): symmetric to the start handler. -/
def handleEndDateChange (startDate endDate : Int) (newEnd : Option Int) :
    Int × Int :=
  match newEnd with
  | none => (startDate, endDate)
  | some e => (startDate, e)

/-- The zoom commit of `handleMouseUp` (lines 365-373): the selected
endpoints are swapped when `left > right` before becoming the range. -/
def zoomRange (left right : Int) : Int × Int :=
  if left > right then (right, left) else (left, right)

/-- The `dateMap` fold over one flat list of (entity name, point) pairs;
`buildDateMap` is this fold over the concatenation of the entities'
labelled series (proved below), which flattens the nested loops. -/
def insertAll (rows : List MergedRow) (items : List (String × HistoricalPoint)) :
    List MergedRow :=
  items.foldl (fun rows it => addPoint rows it.1 it.2) rows

/-! ### Theorems -/

set_option maxRecDepth 10000

/-- C2 (counterexample): the claim says the interval is 7 days whenever the
range width is at most 365 days, but at a width of 362 days the code already
returns the 30-day interval: the weekly tier ends at `12 * MONTH = 360` days,
not 365. -/
theorem C2_counterexample :
    getAggregationInterval 0 (362 * DAY) = MONTH ∧ MONTH ≠ WEEK := by
  constructor <;> decide

/-- C2 (amended): `getAggregationInterval` is the step function returning
1 hour for range widths up to 7 days, 1 day up to 90 days, 7 days up to
360 days (12 thirty-day months), and 30 days beyond; the three boundary
examples of the claim hold as stated. -/
theorem C2_interval_step_function :
    (∀ startDate endDate : Int,
      getAggregationInterval startDate endDate =
        if endDate - startDate ≤ 7 * DAY then HOUR
        else if endDate - startDate ≤ 90 * DAY then DAY
        else if endDate - startDate ≤ 360 * DAY then WEEK
        else MONTH) ∧
    (∀ t : Int, getAggregationInterval t (t + 7 * DAY) = HOUR) ∧
    (∀ t : Int, getAggregationInterval t (t + (7 * DAY + 1)) = DAY) ∧
    (∀ t : Int, getAggregationInterval t (t + 366 * DAY) = MONTH) := by
  have h3 : 3 * MONTH = 90 * DAY := by decide
  have h12 : 12 * MONTH = 360 * DAY := by decide
  refine ⟨fun s e => ?_, fun t => ?_, fun t => ?_, fun t => ?_⟩
  · simp only [getAggregationInterval, h3, h12]
  all_goals
    simp only [getAggregationInterval, DAY, WEEK, MONTH, HOUR]
    norm_num

/-- C3: the output of `aggregateData` is non-decreasing by timestamp for any
input order and positive interval width, and so are the merged rows (both
end in a sort by date, so this holds even without the width hypothesis). -/
theorem C3_sort_invariant :
    (∀ (data : List HistoricalPoint) (w : Int), 0 < w →
      List.Sorted byDate (aggregateData data w)) ∧
    (∀ entities : List AggEntity, List.Sorted rowLE (mergeRows entities)) := by
  constructor
  · intro data w _
    unfold aggregateData
    split
    · exact List.sorted_nil
    · exact List.sorted_insertionSort byDate _
  · intro entities
    exact List.sorted_insertionSort rowLE _

/-- Witness for C3 at a shuffled concrete input. -/
theorem C3_sort_invariant_witness :
    (0 : Int) < 2 ∧ List.Sorted byDate (aggregateData [⟨3, 7⟩, ⟨1, 2⟩] 2) :=
  ⟨by decide, C3_sort_invariant.1 [⟨3, 7⟩, ⟨1, 2⟩] 2 (by decide)⟩

/-- C4 (counterexample): a date-field edit does not swap the endpoints.
Editing the start date of the range `[0, 5]` to `10` leaves the state at
`(10, 5)`, violating `start ≤ end`. -/
theorem C4_counterexample :
    handleStartDateChange 0 5 (some 10) = (10, 5) ∧
      ¬ (handleStartDateChange 0 5 (some 10)).1 ≤ (handleStartDateChange 0 5 (some 10)).2 :=
  ⟨rfl, by decide⟩

/-- C4 (amended): the date-field handlers install the edited endpoint
unchanged (so `start ≤ end` can be violated by a date-field edit and no
swap or error occurs there); the endpoint swap that restores `start ≤ end`
is performed only by the drag-zoom commit in `handleMouseUp`. -/
theorem C4_swap_only_in_drag_zoom :
    (∀ s e n : Int, handleStartDateChange s e (some n) = (n, e)) ∧
    (∀ s e n : Int, handleEndDateChange s e (some n) = (s, n)) ∧
    (∀ l r : Int, (zoomRange l r).1 ≤ (zoomRange l r).2 ∧
      ((zoomRange l r).1 = l ∧ (zoomRange l r).2 = r ∨
       (zoomRange l r).1 = r ∧ (zoomRange l r).2 = l)) := by
  refine ⟨fun s e n => rfl, fun s e n => rfl, fun l r => ?_⟩
  unfold zoomRange
  split <;> constructor <;> omega

/-- C5 (counterexample): for the bucket `[500, 500, 500, 100]` the mean of
all four values is 400, not 300; the single representative point carries
the value 400, refuting the claimed output value. -/
theorem C5_counterexample :
    aggregateData [⟨0, 500⟩, ⟨1, 500⟩, ⟨2, 500⟩, ⟨3, 100⟩] 10 = [⟨0, 400⟩] ∧
      aggregateData [⟨0, 500⟩, ⟨1, 500⟩, ⟨2, 500⟩, ⟨3, 100⟩] 10 ≠ [⟨0, 300⟩] := by
  with_unfolding_all decide

/-- C5 (amended): in the bucket `[500, 500, 500, 100]` no point passes the
upward-outlier test (100 sits below the mean of 400, and no value exceeds
the mean by more than the threshold), so no point is split out and the
single representative at the bucket key is `round(mean of all four) = 400`. -/
theorem C5_no_downward_split :
    (([⟨0, 500⟩, ⟨1, 500⟩, ⟨2, 500⟩, ⟨3, 100⟩] : List HistoricalPoint).filter
        (fun p => isUpwardOutlier (meanOf [⟨0, 500⟩, ⟨1, 500⟩, ⟨2, 500⟩, ⟨3, 100⟩])
          (varianceOf [⟨0, 500⟩, ⟨1, 500⟩, ⟨2, 500⟩, ⟨3, 100⟩]) p.count) = []) ∧
    (100 : ℚ) < meanOf [⟨0, 500⟩, ⟨1, 500⟩, ⟨2, 500⟩, ⟨3, 100⟩] ∧
    aggregateData [⟨0, 500⟩, ⟨1, 500⟩, ⟨2, 500⟩, ⟨3, 100⟩] 10 =
      [⟨0, jsRound (meanOf [⟨0, 500⟩, ⟨1, 500⟩, ⟨2, 500⟩, ⟨3, 100⟩])⟩] ∧
    jsRound (meanOf [⟨0, 500⟩, ⟨1, 500⟩, ⟨2, 500⟩, ⟨3, 100⟩]) = 400 := by
  with_unfolding_all decide

/-- The variance is a mean of squares, hence nonnegative. -/
theorem varianceOf_nonneg (pts : List HistoricalPoint) : 0 ≤ varianceOf pts := by
  unfold varianceOf
  apply div_nonneg
  · apply List.sum_nonneg
    intro x hx
    obtain ⟨p, _, rfl⟩ := List.mem_map.mp hx
    positivity
  · positivity

/-- If every value of a non-empty list is strictly above `c`, the sum is
strictly above `c` times the length. -/
theorem mul_length_lt_sum (c : ℚ) (l : List HistoricalPoint) (hne : l ≠ [])
    (h : ∀ p ∈ l, c < (p.count : ℚ)) :
    c * l.length < (l.map fun p => (p.count : ℚ)).sum := by
  induction l with
  | nil => exact absurd rfl hne
  | cons p tail ih =>
    cases tail with
    | nil => simpa using h p (by simp)
    | cons q rest =>
      have h1 := h p (by simp)
      have h2 := ih (by simp) fun x hx => h x (by simp [hx])
      simp only [List.map_cons, List.sum_cons, List.length_cons] at *
      push_cast at *
      linarith

/-- In a non-empty bucket the filter of non-outliers is non-empty: the
outlier test requires `count > mean`, and not every value can be strictly
above the mean. -/
theorem normalFilter_ne_nil (pts : List HistoricalPoint) (hne : pts ≠ []) :
    pts.filter (fun p => !(isUpwardOutlier (meanOf pts) (varianceOf pts) p.count)) ≠ [] := by
  intro hfil
  have hall : ∀ p ∈ pts, meanOf pts < (p.count : ℚ) := by
    intro p hp
    have := List.filter_eq_nil_iff.mp hfil p hp
    simp only [Bool.not_eq_true', Bool.not_eq_false] at this
    unfold isUpwardOutlier at this
    rw [Bool.and_eq_true, decide_eq_true_eq] at this
    exact this.1
  have hlt := mul_length_lt_sum (meanOf pts) pts hne hall
  have hlen : ((pts.length : ℚ)) ≠ 0 := by
    have : 0 < pts.length := List.length_pos.mpr hne
    positivity
  have hsum : meanOf pts * pts.length = (pts.map fun p => (p.count : ℚ)).sum := by
    unfold meanOf
    field_simp
  rw [hsum] at hlt
  exact lt_irrefl _ hlt

/-- Unfolding of `processBucket` on a bucket of two or more points. -/
theorem processBucket_cons_cons (k : Int) (p q : HistoricalPoint)
    (rest : List HistoricalPoint) :
    processBucket k (p :: q :: rest) =
      (if ((p :: q :: rest).filter fun x =>
            !(isUpwardOutlier (meanOf (p :: q :: rest)) (varianceOf (p :: q :: rest))
              x.count)).length > 0
       then [⟨k, jsRound (meanOf ((p :: q :: rest).filter fun x =>
            !(isUpwardOutlier (meanOf (p :: q :: rest)) (varianceOf (p :: q :: rest))
              x.count)))⟩]
       else [⟨k, jsRound ((medianOf (p :: q :: rest) : ℚ))⟩]) ++
        (p :: q :: rest).filter fun x =>
          isUpwardOutlier (meanOf (p :: q :: rest)) (varianceOf (p :: q :: rest)) x.count :=
  rfl

/-- On a multi-point bucket the representative is always the rounded mean
of the non-outlier points (the median fallback is dead code), followed by
the preserved outliers in encounter order. -/
theorem processBucket_multi_eq (k : Int) (pts : List HistoricalPoint)
    (h : 1 < pts.length) :
    processBucket k pts =
      ⟨k, jsRound (meanOf (pts.filter fun p =>
          !(isUpwardOutlier (meanOf pts) (varianceOf pts) p.count)))⟩ ::
        pts.filter (fun p => isUpwardOutlier (meanOf pts) (varianceOf pts) p.count) := by
  cases pts with
  | nil => simp at h
  | cons p tail =>
    cases tail with
    | nil => simp at h
    | cons q rest =>
      rw [processBucket_cons_cons, if_pos, List.singleton_append]
      exact List.length_pos.mpr (normalFilter_ne_nil _ (by simp))

/-- The square-free Boolean threshold test agrees with the real-valued
`d > Math.sqrt v * 1.5` of the source whenever `v` is nonnegative. -/
theorem exceedsScaledStdDev_iff_sqrt (d v : ℚ) (hv : 0 ≤ v) :
    exceedsScaledStdDev d v = true ↔ Real.sqrt (v : ℝ) * 1.5 < (d : ℝ) := by
  unfold exceedsScaledStdDev
  rw [Bool.and_eq_true, decide_eq_true_eq, decide_eq_true_eq]
  have hv' : (0 : ℝ) ≤ (v : ℝ) := by exact_mod_cast hv
  have hs := Real.sqrt_nonneg (v : ℝ)
  have hsq := Real.sq_sqrt hv'
  constructor
  · rintro ⟨hd, hlt⟩
    have hd' : (0 : ℝ) < (d : ℝ) := by exact_mod_cast hd
    have hlt' : (v : ℝ) * (9/4) < (d : ℝ) ^ 2 := by
      have h0 : ((v * (9/4) : ℚ) : ℝ) < ((d ^ 2 : ℚ) : ℝ) := Rat.cast_lt.mpr hlt
      push_cast at h0
      exact h0
    nlinarith
  · intro hlt
    have hd' : (0 : ℝ) < (d : ℝ) := lt_of_le_of_lt (by positivity) hlt
    have hlt' : (v : ℝ) * (9/4) < (d : ℝ) ^ 2 := by nlinarith
    refine ⟨by exact_mod_cast hd', ?_⟩
    have h0 : ((v * (9/4) : ℚ) : ℝ) < ((d ^ 2 : ℚ) : ℝ) := by push_cast; exact hlt'
    exact_mod_cast h0

/-- The Boolean outlier test of the embedding agrees with the claim's
real-valued formulation `value > mean ∧ value - mean > max(1.5 * stdDev,
0.5 * mean)`. -/
theorem isUpwardOutlier_iff (m v : ℚ) (c : Int) (hv : 0 ≤ v) :
    isUpwardOutlier m v c = true ↔
      ((m : ℝ) < (c : ℝ) ∧
        max (Real.sqrt (v : ℝ) * 1.5) ((m : ℝ) * 0.5) < (c : ℝ) - (m : ℝ)) := by
  unfold isUpwardOutlier
  rw [Bool.and_eq_true, Bool.and_eq_true, decide_eq_true_eq, decide_eq_true_eq,
    exceedsScaledStdDev_iff_sqrt _ _ hv, max_lt_iff]
  have hcast : (((c : ℚ) - m : ℚ) : ℝ) = (c : ℝ) - (m : ℝ) := by push_cast; ring
  rw [hcast]
  constructor
  · rintro ⟨h1, h2, h3⟩
    refine ⟨by exact_mod_cast h1, h2, ?_⟩
    have h3' : ((m * (1/2) : ℚ) : ℝ) < (c : ℝ) - (m : ℝ) := by
      rw [← hcast]; exact_mod_cast h3
    calc (m : ℝ) * 0.5 = ((m * (1/2) : ℚ) : ℝ) := by push_cast; norm_num
    _ < (c : ℝ) - (m : ℝ) := h3'
  · rintro ⟨h1, h2, h3⟩
    refine ⟨by exact_mod_cast h1, h2, ?_⟩
    have h3' : ((m * (1/2) : ℚ) : ℝ) < (c : ℝ) - (m : ℝ) := by
      calc ((m * (1/2) : ℚ) : ℝ) = (m : ℝ) * 0.5 := by push_cast; norm_num
      _ < (c : ℝ) - (m : ℝ) := h3
    rw [← hcast] at h3'
    exact_mod_cast h3'

/-- C1: in every multi-point bucket, a point is flagged as a preserved
upward outlier exactly when its value strictly exceeds the bucket mean and
its deviation strictly exceeds `max(1.5 * population stdDev, 0.5 * mean)`;
the bucket emits the rounded mean of the non-outliers at the bucket key
followed by each flagged point unmodified; and the bucket
`[100, 100, 100, 500]` (interval 10) produces exactly the representative
`⟨0, 100⟩` plus the preserved point `⟨3, 500⟩`. -/
theorem C1_upward_outlier_preservation :
    (∀ (pts : List HistoricalPoint) (k : Int), 1 < pts.length →
      (∀ p ∈ pts,
        isUpwardOutlier (meanOf pts) (varianceOf pts) p.count = true ↔
          ((meanOf pts : ℝ) < (p.count : ℝ) ∧
            max (Real.sqrt ((varianceOf pts : ℚ) : ℝ) * 1.5) ((meanOf pts : ℝ) * 0.5) <
              (p.count : ℝ) - (meanOf pts : ℝ))) ∧
      processBucket k pts =
        ⟨k, jsRound (meanOf (pts.filter fun p =>
            !(isUpwardOutlier (meanOf pts) (varianceOf pts) p.count)))⟩ ::
          pts.filter (fun p => isUpwardOutlier (meanOf pts) (varianceOf pts) p.count)) ∧
    aggregateData [⟨0, 100⟩, ⟨1, 100⟩, ⟨2, 100⟩, ⟨3, 500⟩] 10 = [⟨0, 100⟩, ⟨3, 500⟩] := by
  refine ⟨fun pts k h => ⟨fun p _ => ?_, processBucket_multi_eq k pts h⟩, ?_⟩
  · exact isUpwardOutlier_iff _ _ _ (varianceOf_nonneg pts)
  · with_unfolding_all decide

/-- Witness for C1 on the claim's own bucket. -/
theorem C1_upward_outlier_preservation_witness :
    1 < ([⟨0, 100⟩, ⟨1, 100⟩, ⟨2, 100⟩, ⟨3, 500⟩] : List HistoricalPoint).length ∧
      ((∀ p ∈ ([⟨0, 100⟩, ⟨1, 100⟩, ⟨2, 100⟩, ⟨3, 500⟩] : List HistoricalPoint),
        isUpwardOutlier (meanOf [⟨0, 100⟩, ⟨1, 100⟩, ⟨2, 100⟩, ⟨3, 500⟩])
            (varianceOf [⟨0, 100⟩, ⟨1, 100⟩, ⟨2, 100⟩, ⟨3, 500⟩]) p.count = true ↔
          ((meanOf [⟨0, 100⟩, ⟨1, 100⟩, ⟨2, 100⟩, ⟨3, 500⟩] : ℝ) < (p.count : ℝ) ∧
            max (Real.sqrt ((varianceOf [⟨0, 100⟩, ⟨1, 100⟩, ⟨2, 100⟩, ⟨3, 500⟩] : ℚ) : ℝ) * 1.5)
                ((meanOf [⟨0, 100⟩, ⟨1, 100⟩, ⟨2, 100⟩, ⟨3, 500⟩] : ℝ) * 0.5) <
              (p.count : ℝ) - (meanOf [⟨0, 100⟩, ⟨1, 100⟩, ⟨2, 100⟩, ⟨3, 500⟩] : ℝ))) ∧
      processBucket 0 [⟨0, 100⟩, ⟨1, 100⟩, ⟨2, 100⟩, ⟨3, 500⟩] =
        ⟨0, jsRound (meanOf (([⟨0, 100⟩, ⟨1, 100⟩, ⟨2, 100⟩, ⟨3, 500⟩] : List HistoricalPoint).filter
            fun p => !(isUpwardOutlier (meanOf [⟨0, 100⟩, ⟨1, 100⟩, ⟨2, 100⟩, ⟨3, 500⟩])
              (varianceOf [⟨0, 100⟩, ⟨1, 100⟩, ⟨2, 100⟩, ⟨3, 500⟩]) p.count)))⟩ ::
          ([⟨0, 100⟩, ⟨1, 100⟩, ⟨2, 100⟩, ⟨3, 500⟩] : List HistoricalPoint).filter
            (fun p => isUpwardOutlier (meanOf [⟨0, 100⟩, ⟨1, 100⟩, ⟨2, 100⟩, ⟨3, 500⟩])
              (varianceOf [⟨0, 100⟩, ⟨1, 100⟩, ⟨2, 100⟩, ⟨3, 500⟩]) p.count)) :=
  ⟨by decide, C1_upward_outlier_preservation.1 _ 0 (by decide)⟩

/-- C10: the all-outliers median fallback of `aggregateData` is dead code.
In every non-empty bucket some value is at most the mean, so it fails the
strict `count > mean` test and lands in the normal partition; consequently
every multi-point bucket emits the rounded mean of its normal points. -/
theorem C10_median_fallback_unreachable :
    ∀ (pts : List HistoricalPoint) (k : Int), pts ≠ [] →
      pts.filter (fun p => !(isUpwardOutlier (meanOf pts) (varianceOf pts) p.count)) ≠ [] ∧
      (1 < pts.length →
        processBucket k pts =
          ⟨k, jsRound (meanOf (pts.filter fun p =>
              !(isUpwardOutlier (meanOf pts) (varianceOf pts) p.count)))⟩ ::
            pts.filter (fun p => isUpwardOutlier (meanOf pts) (varianceOf pts) p.count)) :=
  fun pts k hne => ⟨normalFilter_ne_nil pts hne, fun h => processBucket_multi_eq k pts h⟩

/-- Witness for C10 on a concrete two-point bucket. -/
theorem C10_median_fallback_unreachable_witness :
    ([⟨0, 1⟩, ⟨1, 3⟩] : List HistoricalPoint) ≠ [] ∧
      (([⟨0, 1⟩, ⟨1, 3⟩] : List HistoricalPoint).filter
        (fun p => !(isUpwardOutlier (meanOf [⟨0, 1⟩, ⟨1, 3⟩])
          (varianceOf [⟨0, 1⟩, ⟨1, 3⟩]) p.count)) ≠ [] ∧
      (1 < ([⟨0, 1⟩, ⟨1, 3⟩] : List HistoricalPoint).length →
        processBucket 5 [⟨0, 1⟩, ⟨1, 3⟩] =
          ⟨5, jsRound (meanOf (([⟨0, 1⟩, ⟨1, 3⟩] : List HistoricalPoint).filter fun p =>
              !(isUpwardOutlier (meanOf [⟨0, 1⟩, ⟨1, 3⟩])
                (varianceOf [⟨0, 1⟩, ⟨1, 3⟩]) p.count)))⟩ ::
            ([⟨0, 1⟩, ⟨1, 3⟩] : List HistoricalPoint).filter
              (fun p => isUpwardOutlier (meanOf [⟨0, 1⟩, ⟨1, 3⟩])
                (varianceOf [⟨0, 1⟩, ⟨1, 3⟩]) p.count))) :=
  ⟨by decide, C10_median_fallback_unreachable [⟨0, 1⟩, ⟨1, 3⟩] 5 (by decide)⟩

/-- Once both accumulator components are finite, the default-range scan
computes running maxima of first dates and minima of last dates. -/
theorem foldl_rangeStep_some (games : List (List HistoricalPoint)) (a b : Int)
    (hall : ∀ g ∈ games, g ≠ []) :
    games.foldl rangeStep (some a, some b) =
      (some ((games.map firstDate).foldl max a),
       some ((games.map lastDate).foldl min b)) := by
  induction games generalizing a b with
  | nil => rfl
  | cons g rest ih =>
    cases g with
    | nil => exact absurd rfl (hall [] (by simp))
    | cons p t =>
      simp only [List.foldl_cons, List.map_cons]
      rw [show rangeStep (some a, some b) (p :: t) =
            (some (max a p.date), some (min b ((t.getLastD p).date))) from rfl]
      rw [ih _ _ fun x hx => hall x (by simp [hx])]
      rfl

/-- C7: with at least one entity and no empty series, the default active
range is the intersection `[max of first dates, min of last dates]` of the
entities' observed ranges; when that intersection is empty (max of starts
strictly above min of ends) the range falls back to `[now - 365 days, now]`. -/
theorem C7_default_range (games : List (List HistoricalPoint)) (now : Int)
    (hne : games ≠ []) (hall : ∀ g ∈ games, g ≠ []) :
    ∃ ms me, (games.map firstDate).max? = some ms ∧
      (games.map lastDate).min? = some me ∧
      computeDefaultRange games now =
        if ms ≤ me then (ms, me) else (now - 365 * DAY, now) := by
  cases games with
  | nil => exact absurd rfl hne
  | cons g rest =>
    cases g with
    | nil => exact absurd rfl (hall [] (by simp))
    | cons p t =>
      refine ⟨(rest.map firstDate).foldl max (firstDate (p :: t)),
        (rest.map lastDate).foldl min (lastDate (p :: t)), rfl, rfl, ?_⟩
      unfold computeDefaultRange
      rw [List.foldl_cons,
        show rangeStep (none, none) (p :: t) =
          (some p.date, some ((t.getLastD p).date)) from rfl,
        foldl_rangeStep_some rest p.date ((t.getLastD p).date)
          fun x hx => hall x (by simp [hx])]
      rfl

/-- Witness for C7: two disjoint observed ranges force the 365-day fallback. -/
theorem C7_default_range_witness :
    ([[⟨0, 1⟩, ⟨10, 2⟩], [⟨20, 3⟩, ⟨30, 4⟩]] : List (List HistoricalPoint)) ≠ [] ∧
      (∀ g ∈ ([[⟨0, 1⟩, ⟨10, 2⟩], [⟨20, 3⟩, ⟨30, 4⟩]] : List (List HistoricalPoint)), g ≠ []) ∧
      ∃ ms me,
        (([[⟨0, 1⟩, ⟨10, 2⟩], [⟨20, 3⟩, ⟨30, 4⟩]] : List (List HistoricalPoint)).map
          firstDate).max? = some ms ∧
        (([[⟨0, 1⟩, ⟨10, 2⟩], [⟨20, 3⟩, ⟨30, 4⟩]] : List (List HistoricalPoint)).map
          lastDate).min? = some me ∧
        computeDefaultRange [[⟨0, 1⟩, ⟨10, 2⟩], [⟨20, 3⟩, ⟨30, 4⟩]] 1000 =
          if ms ≤ me then (ms, me) else (1000 - 365 * DAY, 1000) :=
  ⟨by decide, by decide,
    C7_default_range [[⟨0, 1⟩, ⟨10, 2⟩], [⟨20, 3⟩, ⟨30, 4⟩]] 1000 (by decide) (by decide)⟩

/-- C6: aggregating the empty series yields the empty series, and a bucket
holding exactly one point emits exactly that point's value re-timestamped
to the bucket key (stated both for `processBucket` and for a one-point
input to `aggregateData`). -/
theorem C6_empty_and_singleton_buckets :
    (∀ w : Int, aggregateData [] w = []) ∧
    (∀ (k : Int) (p : HistoricalPoint), processBucket k [p] = [⟨k, p.count⟩]) ∧
    (∀ (p : HistoricalPoint) (w : Int),
      aggregateData [p] w = [⟨bucketKey w p.date, p.count⟩]) :=
  ⟨fun _ => rfl, fun _ _ => rfl, fun _ _ => rfl⟩

/-- A fresh key is appended at the end of the bucket list. -/
theorem addToBucket_of_not_mem (bs : List (Int × List HistoricalPoint)) (k : Int)
    (p : HistoricalPoint) (h : k ∉ bs.map Prod.fst) :
    addToBucket bs k p = bs ++ [(k, [p])] := by
  induction bs with
  | nil => rfl
  | cons b rest ih =>
    obtain ⟨k2, ps⟩ := b
    simp only [List.map_cons, List.mem_cons, not_or] at h
    rw [addToBucket, if_neg (Ne.symm h.1), ih h.2]
    rfl

/-- When all bucket keys of the input are distinct, grouping produces one
singleton bucket per point, in input order. -/
theorem foldl_addToBucket_of_nodup (w : Int) :
    ∀ (data : List HistoricalPoint) (bs : List (Int × List HistoricalPoint)),
      (bs.map Prod.fst ++ data.map fun p => bucketKey w p.date).Nodup →
      data.foldl (fun bs p => addToBucket bs (bucketKey w p.date) p) bs =
        bs ++ data.map fun p => (bucketKey w p.date, [p]) := by
  intro data
  induction data with
  | nil => intro bs _; simp
  | cons p rest ih =>
    intro bs h
    have hdisj := (List.nodup_append.mp h).2.2
    have hk : bucketKey w p.date ∉ bs.map Prod.fst := by
      intro hmem
      exact hdisj hmem (by simp)
    rw [List.foldl_cons, addToBucket_of_not_mem bs _ p hk]
    rw [ih (bs ++ [(bucketKey w p.date, [p])]) ?_]
    · simp
    · simp only [List.map_append, List.map_cons, List.map_nil]
      rw [List.append_assoc]
      simpa using h

/-- Flattening a list of singletons is a map. -/
theorem flatten_map_singleton {α β : Type} (f : α → β) (l : List α) :
    (l.map fun x => [f x]).flatten = l.map f := by
  induction l with
  | nil => rfl
  | cons x rest ih => simp [ih]

/-- On input whose bucket keys are pairwise distinct, `aggregateData` just
re-timestamps every point to its bucket key and sorts. -/
theorem aggregateData_of_nodup_keys (data : List HistoricalPoint) (w : Int)
    (hs : (data.map fun p => bucketKey w p.date).Nodup) :
    aggregateData data w =
      List.insertionSort byDate (data.map fun p => ⟨bucketKey w p.date, p.count⟩) := by
  cases data with
  | nil => rfl
  | cons q tail =>
    rw [aggregateData, if_neg (by simp)]
    unfold buildBuckets
    rw [foldl_addToBucket_of_nodup w (q :: tail) [] (by simpa using hs), List.nil_append,
      List.map_map]
    have : ((fun b : Int × List HistoricalPoint => processBucket b.1 b.2) ∘
        fun p : HistoricalPoint => (bucketKey w p.date, [p])) =
        fun p : HistoricalPoint => [(⟨bucketKey w p.date, p.count⟩ : HistoricalPoint)] := by
      funext p
      rfl
    rw [this, flatten_map_singleton]

/-- Mapping a pointwise-identical function is the identity. -/
theorem map_eq_self_of_mem (l : List HistoricalPoint) (f : HistoricalPoint → HistoricalPoint)
    (h : ∀ p ∈ l, f p = p) : l.map f = l := by
  induction l with
  | nil => rfl
  | cons p rest ih =>
    rw [List.map_cons, h p (by simp), ih fun x hx => h x (by simp [hx])]

/-- C9: bucketing is idempotent on already-bucketed input.  If every point
sits on a bucket boundary (`bucketKey w p.date = p.date`) and all bucket
keys are distinct (singleton buckets), then aggregating twice equals
aggregating once. -/
theorem C9_idempotent_on_bucketed (P : List HistoricalPoint) (w : Int) (_hw : 0 < w)
    (hb : ∀ p ∈ P, bucketKey w p.date = p.date)
    (hs : (P.map fun p => bucketKey w p.date).Nodup) :
    aggregateData (aggregateData P w) w = aggregateData P w := by
  have hmap : (P.map fun p => (⟨bucketKey w p.date, p.count⟩ : HistoricalPoint)) = P :=
    map_eq_self_of_mem P _ fun p hp => by rw [hb p hp]
  have h1 : aggregateData P w = List.insertionSort byDate P := by
    rw [aggregateData_of_nodup_keys P w hs, hmap]
  have hperm : List.Perm (List.insertionSort byDate P) P := List.perm_insertionSort byDate P
  have hbQ : ∀ p ∈ List.insertionSort byDate P, bucketKey w p.date = p.date :=
    fun p hp => hb p (hperm.mem_iff.mp hp)
  have hsQ : ((List.insertionSort byDate P).map fun p => bucketKey w p.date).Nodup :=
    (List.Perm.nodup_iff (hperm.map _)).mpr hs
  have hmapQ : ((List.insertionSort byDate P).map
      fun p => (⟨bucketKey w p.date, p.count⟩ : HistoricalPoint)) =
      List.insertionSort byDate P :=
    map_eq_self_of_mem _ _ fun p hp => by rw [hbQ p hp]
  rw [h1, aggregateData_of_nodup_keys _ w hsQ, hmapQ,
    (List.sorted_insertionSort byDate P).insertionSort_eq]

/-- The nested `dateMap` loops equal one fold over the flattened list of
(name, point) pairs. -/
theorem buildDateMap_eq (entities : List AggEntity) :
    buildDateMap entities =
      insertAll [] ((entities.map fun e => e.series.map fun p => (e.name, p)).flatten) := by
  suffices h : ∀ (es : List AggEntity) (rows : List MergedRow),
      es.foldl (fun rows e => e.series.foldl (fun rows p => addPoint rows e.name p) rows) rows =
        insertAll rows ((es.map fun e => e.series.map fun p => (e.name, p)).flatten) from
    h entities []
  intro es
  induction es with
  | nil => intro rows; rfl
  | cons e rest ih =>
    intro rows
    rw [List.foldl_cons, List.map_cons, List.flatten_cons, ih]
    unfold insertAll
    rw [List.foldl_append, List.foldl_map]

/-- The timestamp keys after `addPoint`: unchanged when the date was
already present, otherwise the new date is appended. -/
theorem addPoint_keys (rows : List MergedRow) (n : String) (p : HistoricalPoint) :
    (addPoint rows n p).map Prod.fst =
      if p.date ∈ rows.map Prod.fst then rows.map Prod.fst
      else rows.map Prod.fst ++ [p.date] := by
  induction rows with
  | nil => rfl
  | cons r rest ih =>
    obtain ⟨t, row⟩ := r
    by_cases ht : t = p.date
    · subst ht
      simp [addPoint]
    · simp only [addPoint, if_neg ht, List.map_cons]
      rw [ih]
      by_cases hm : p.date ∈ rest.map Prod.fst
      · rw [if_pos hm, if_pos (by simp [hm])]
      · rw [if_neg hm, if_neg (by simp [hm]; exact fun h => ht h.symm)]
        simp

/-- Membership form of `addPoint_keys`. -/
theorem addPoint_keys_mem (rows : List MergedRow) (n : String) (p : HistoricalPoint)
    (t : Int) :
    t ∈ (addPoint rows n p).map Prod.fst ↔ t ∈ rows.map Prod.fst ∨ t = p.date := by
  rw [addPoint_keys]
  by_cases hm : p.date ∈ rows.map Prod.fst
  · rw [if_pos hm]
    constructor
    · exact Or.inl
    · rintro (h | rfl)
      exacts [h, hm]
  · rw [if_neg hm]
    simp

/-- `addPoint` keeps the timestamp keys distinct. -/
theorem addPoint_keys_nodup (rows : List MergedRow) (n : String) (p : HistoricalPoint)
    (h : (rows.map Prod.fst).Nodup) : ((addPoint rows n p).map Prod.fst).Nodup := by
  rw [addPoint_keys]
  by_cases hm : p.date ∈ rows.map Prod.fst
  · rwa [if_pos hm]
  · rw [if_neg hm]
    simp [List.nodup_append, h, hm]

/-- The timestamp keys after a whole `insertAll` run are the old keys plus
the dates of the inserted points. -/
theorem insertAll_keys_mem :
    ∀ (items : List (String × HistoricalPoint)) (rows : List MergedRow) (t : Int),
      t ∈ (insertAll rows items).map Prod.fst ↔
        t ∈ rows.map Prod.fst ∨ ∃ it ∈ items, it.2.date = t := by
  intro items
  induction items with
  | nil => intro rows t; simp [insertAll]
  | cons it rest ih =>
    intro rows t
    rw [show insertAll rows (it :: rest) = insertAll (addPoint rows it.1 it.2) rest from rfl,
      ih, addPoint_keys_mem]
    constructor
    · rintro ((h | rfl) | ⟨x, hx, hd⟩)
      · exact Or.inl h
      · exact Or.inr ⟨it, by simp⟩
      · exact Or.inr ⟨x, by simp [hx], hd⟩
    · rintro (h | ⟨x, hx, hd⟩)
      · exact Or.inl (Or.inl h)
      · rcases List.mem_cons.mp hx with rfl | hx2
        · exact Or.inl (Or.inr hd.symm)
        · exact Or.inr ⟨x, hx2, hd⟩

/-- `insertAll` keeps the timestamp keys distinct. -/
theorem insertAll_keys_nodup :
    ∀ (items : List (String × HistoricalPoint)) (rows : List MergedRow),
      (rows.map Prod.fst).Nodup → ((insertAll rows items).map Prod.fst).Nodup := by
  intro items
  induction items with
  | nil => intro rows h; exact h
  | cons it rest ih =>
    intro rows h
    exact ih (addPoint rows it.1 it.2) (addPoint_keys_nodup rows it.1 it.2 h)

/-- Every assignment surviving `setKey` either was present before or is the
newly written pair. -/
theorem setKey_forall {Q : String × Int → Prop} :
    ∀ (row : List (String × Int)) (n : String) (v : Int),
      (∀ nv ∈ row, Q nv) → Q (n, v) → ∀ nv ∈ setKey row n v, Q nv := by
  intro row
  induction row with
  | nil =>
    intro n v _ hq nv hnv
    simp only [setKey, List.mem_singleton] at hnv
    exact hnv ▸ hq
  | cons a rest ih =>
    intro n v hall hq nv hnv
    obtain ⟨an, av⟩ := a
    simp only [setKey] at hnv
    by_cases h : an = n
    · rw [if_pos h] at hnv
      rcases List.mem_cons.mp hnv with rfl | hmem
      · exact h ▸ hq
      · exact hall _ (by simp [hmem])
    · rw [if_neg h] at hnv
      rcases List.mem_cons.mp hnv with rfl | hmem
      · exact hall _ (by simp)
      · exact ih n v (fun x hx => hall x (by simp [hx])) hq nv hmem

/-- Every assignment in the `dateMap` after `addPoint` is either an old one
or records exactly the inserted name, date and value. -/
theorem addPoint_good {R : String → Int → Int → Prop} :
    ∀ (rows : List MergedRow) (n : String) (p : HistoricalPoint),
      (∀ r ∈ rows, ∀ nv ∈ r.2, R nv.1 r.1 nv.2) → R n p.date p.count →
      ∀ r ∈ addPoint rows n p, ∀ nv ∈ r.2, R nv.1 r.1 nv.2 := by
  intro rows
  induction rows with
  | nil =>
    intro n p _ hR r hr nv hnv
    simp only [addPoint, List.mem_singleton] at hr
    subst hr
    simp only [List.mem_singleton] at hnv
    subst hnv
    exact hR
  | cons a rest ih =>
    intro n p hall hR r hr
    obtain ⟨t, row⟩ := a
    simp only [addPoint] at hr
    by_cases ht : t = p.date
    · rw [if_pos ht] at hr
      rcases List.mem_cons.mp hr with rfl | hmem
      · intro nv hnv
        exact setKey_forall row n p.count
          (fun x hx => hall (t, row) (by simp) x hx) (ht ▸ hR) nv hnv
      · exact hall _ (by simp [hmem])
    · rw [if_neg ht] at hr
      rcases List.mem_cons.mp hr with rfl | hmem
      · exact hall _ (by simp)
      · exact ih n p (fun x hx => hall x (by simp [hx])) hR r hmem

/-- `addPoint_good` lifted to a whole `insertAll` run. -/
theorem insertAll_good {R : String → Int → Int → Prop} :
    ∀ (items : List (String × HistoricalPoint)) (rows : List MergedRow),
      (∀ r ∈ rows, ∀ nv ∈ r.2, R nv.1 r.1 nv.2) →
      (∀ it ∈ items, R it.1 it.2.date it.2.count) →
      ∀ r ∈ insertAll rows items, ∀ nv ∈ r.2, R nv.1 r.1 nv.2 := by
  intro items
  induction items with
  | nil => intro rows h _; exact h
  | cons it rest ih =>
    intro rows h hitems
    exact ih (addPoint rows it.1 it.2)
      (addPoint_good rows it.1 it.2 h (hitems it (by simp)))
      fun x hx => hitems x (by simp [hx])

/-- C8: the merged table has exactly one row per distinct timestamp
occurring in some entity's series (keys are pairwise distinct and cover
exactly the occurring timestamps); every (name, value) assignment of a row
comes from an actual point of an entity with that display name at the
row's timestamp (absent keys are never invented); and the claim's concrete
example produces exactly two rows, with both keys at t = 5 and only B's
key at t = 10. -/
theorem C8_merge_sparsity :
    (∀ entities : List AggEntity, ((mergeRows entities).map Prod.fst).Nodup) ∧
    (∀ (entities : List AggEntity) (t : Int),
      (∃ r ∈ mergeRows entities, r.1 = t) ↔ ∃ e ∈ entities, ∃ p ∈ e.series, p.date = t) ∧
    (∀ entities : List AggEntity, ∀ r ∈ mergeRows entities, ∀ nv ∈ r.2,
      ∃ e ∈ entities, e.name = nv.1 ∧ (⟨r.1, nv.2⟩ : HistoricalPoint) ∈ e.series) ∧
    mergeRows [⟨"A", [⟨5, 1⟩]⟩, ⟨"B", [⟨5, 2⟩, ⟨10, 3⟩]⟩] =
      [(5, [("A", 1), ("B", 2)]), (10, [("B", 3)])] := by
  have hperm : ∀ entities : List AggEntity,
      List.Perm (mergeRows entities) (buildDateMap entities) :=
    fun entities => List.perm_insertionSort rowLE (buildDateMap entities)
  refine ⟨fun entities => ?_, fun entities t => ?_, fun entities r hr nv hnv => ?_, ?_⟩
  · refine (List.Perm.nodup_iff ((hperm entities).map Prod.fst)).mpr ?_
    rw [buildDateMap_eq]
    exact insertAll_keys_nodup _ [] (by simp)
  · have h1 : (∃ r ∈ mergeRows entities, r.1 = t) ↔ t ∈ (buildDateMap entities).map Prod.fst := by
      rw [List.mem_map]
      exact ⟨fun ⟨r, hr, he⟩ => ⟨r, (hperm entities).mem_iff.mp hr, he⟩,
        fun ⟨r, hr, he⟩ => ⟨r, (hperm entities).mem_iff.mpr hr, he⟩⟩
    rw [h1, buildDateMap_eq, insertAll_keys_mem]
    simp only [List.map_nil, List.not_mem_nil, false_or, List.mem_flatten, List.mem_map]
    constructor
    · rintro ⟨it, ⟨l, ⟨e, he, rfl⟩, hit⟩, hd⟩
      obtain ⟨p, hp, rfl⟩ := List.mem_map.mp hit
      exact ⟨e, he, p, hp, hd⟩
    · rintro ⟨e, he, p, hp, hd⟩
      exact ⟨(e.name, p), ⟨e.series.map fun q => (e.name, q), ⟨e, he, rfl⟩,
        List.mem_map.mpr ⟨p, hp, rfl⟩⟩, hd⟩
  · have hr2 : r ∈ buildDateMap entities := (hperm entities).mem_iff.mp hr
    rw [buildDateMap_eq] at hr2
    refine @insertAll_good
      (fun nm t v => ∃ e ∈ entities, e.name = nm ∧ (⟨t, v⟩ : HistoricalPoint) ∈ e.series)
      _ [] (by simp) ?_ r hr2 nv hnv
    rintro it hit
    obtain ⟨l, hl, hit2⟩ := List.mem_flatten.mp hit
    obtain ⟨e, he, rfl⟩ := List.mem_map.mp hl
    obtain ⟨p, hp, rfl⟩ := List.mem_map.mp hit2
    exact ⟨e, he, rfl, hp⟩
  · decide

/-- Witness for C8: the row at t = 10 of the example carries B's key, and
the provenance part of the theorem traces it back to B's point `⟨10, 3⟩`. -/
theorem C8_merge_sparsity_witness :
    ((10, [("B", 3)]) : MergedRow) ∈
        mergeRows [⟨"A", [⟨5, 1⟩]⟩, ⟨"B", [⟨5, 2⟩, ⟨10, 3⟩]⟩] ∧
      (("B", 3) : String × Int) ∈ [(("B", 3) : String × Int)] ∧
      ∃ e ∈ ([⟨"A", [⟨5, 1⟩]⟩, ⟨"B", [⟨5, 2⟩, ⟨10, 3⟩]⟩] : List AggEntity),
        e.name = "B" ∧ (⟨10, 3⟩ : HistoricalPoint) ∈ e.series :=
  ⟨by decide, by decide,
    C8_merge_sparsity.2.2.1 [⟨"A", [⟨5, 1⟩]⟩, ⟨"B", [⟨5, 2⟩, ⟨10, 3⟩]⟩]
      ((10, [("B", 3)]) : MergedRow) (by decide) (("B", 3) : String × Int) (by decide)⟩

/-- Witness for C9 on two already-bucketed points. -/
theorem C9_idempotent_on_bucketed_witness :
    (0 : Int) < 5 ∧
      (∀ p ∈ ([⟨10, 4⟩, ⟨0, 2⟩] : List HistoricalPoint), bucketKey 5 p.date = p.date) ∧
      (([⟨10, 4⟩, ⟨0, 2⟩] : List HistoricalPoint).map fun p => bucketKey 5 p.date).Nodup ∧
      aggregateData (aggregateData [⟨10, 4⟩, ⟨0, 2⟩] 5) 5 = aggregateData [⟨10, 4⟩, ⟨0, 2⟩] 5 :=
  ⟨by decide, by decide, by decide,
    C9_idempotent_on_bucketed [⟨10, 4⟩, ⟨0, 2⟩] 5 (by decide) (by decide) (by decide)⟩

end SteamCharts
